import Mathlib

/-!
Verification of the salary-normalization and filtering logic of the
Jobstreet dashboard (`src/jobstreet_app.py`).

Strings are modelled as `List Char`.  The Python primitives the program
uses — `str.replace`, `str.split`, `str.strip`, `int(...)` — are embedded
as executable Lean functions, and `parse_salary` together with the
dataframe filters are translated from the source.
-/

/-- The ASCII whitespace characters that Python's `str.strip` (with no
argument) and `int` remove from both ends of a string. -/
def pyIsSpace (c : Char) : Bool :=
  c == ' ' || c == '\t' || c == '\n' || c == '\r' || c == '\x0b' || c == '\x0c'

/-- Python `str.lstrip()`. -/
def lstrip (l : List Char) : List Char := l.dropWhile pyIsSpace

/-- Python `str.rstrip()`. -/
def rstrip (l : List Char) : List Char := (l.reverse.dropWhile pyIsSpace).reverse

/-- Python `str.strip()`. -/
def pyStrip (l : List Char) : List Char := rstrip (lstrip l)

/-- Fueled scanner behind `replaceAll`: Python `str.replace(old, new)` scans
left to right; at a position where `old` is a prefix it emits `new` and skips
`old.length` characters, otherwise it copies one character.  The fuel argument
only makes the recursion structural; `replaceAll` always supplies enough. -/
def replaceAllF (old new : List Char) : Nat → List Char → List Char
  | _, [] => []
  | 0, s => s
  | fuel + 1, c :: rest =>
    if List.isPrefixOf old (c :: rest) then
      new ++ replaceAllF old new fuel (List.drop (old.length - 1) rest)
    else
      c :: replaceAllF old new fuel rest

/-- Python `s.replace(old, new)` for a non-empty `old`. -/
def replaceAll (old new s : List Char) : List Char :=
  replaceAllF old new s.length s

/-- Python `s.split(sep)` for a single-character separator `c`: splits at every
occurrence and keeps empty segments, so `"".split('-') == [""]` and
`"a--b".split('-') == ["a", "", "b"]`. -/
def splitChar (c : Char) : List Char → List (List Char)
  | [] => [[]]
  | x :: xs =>
    if x == c then [] :: splitChar c xs
    else
      match splitChar c xs with
      | [] => [[x]]
      | h :: t => (x :: h) :: t

/-- Digit-with-underscores tail of Python `int` parsing: after the first
digit, each later digit may be preceded by a single underscore. -/
def parseNum : List Char → Nat → Option Nat
  | [], acc => some acc
  | c :: rest, acc =>
    if c == '_' then
      match rest with
      | [] => none
      | d :: rest2 => if d.isDigit then parseNum rest2 (acc * 10 + (d.toNat - 48)) else none
    else if c.isDigit then parseNum rest (acc * 10 + (c.toNat - 48)) else none

/-- Unsigned part of Python `int` parsing: a leading digit, then
`parseNum`. -/
def parseNumStart : List Char → Option Nat
  | [] => none
  | c :: rest => if c.isDigit then parseNum rest (c.toNat - 48) else none

/-- Python `int(s)` on a string: strip whitespace, allow one optional sign,
then a non-empty run of decimal digits with single underscores between
digits.  `none` models the `ValueError` raised on malformed input. -/
def pyInt (l : List Char) : Option Int :=
  match pyStrip l with
  | [] => none
  | c :: rest =>
    if c == '+' then (parseNumStart rest).map (fun n => (n : Int))
    else if c == '-' then (parseNumStart rest).map (fun n => -(n : Int))
    else (parseNumStart (c :: rest)).map (fun n => (n : Int))

/-- The accumulator step of decimal parsing. -/
def digitsFoldFn (a : Nat) (c : Char) : Nat := a * 10 + (c.toNat - 48)

/-- The literal `'Rp'` stripped by `parse_salary`. -/
def rpTok : List Char := ['R', 'p']

/-- The literal `'IDR'` stripped by `parse_salary`. -/
def idrTok : List Char := ['I', 'D', 'R']

/-- The literal `'per month'` stripped by `parse_salary`. -/
def perMonthTok : List Char := ['p', 'e', 'r', ' ', 'm', 'o', 'n', 't', 'h']

/-- The cleanup chain of `parse_salary`, line 23 of the source:
`salary_str.replace('Rp', '').replace('IDR', '').replace('per month', '').replace('–', '-')`. -/
def cleanSalary (s : List Char) : List Char :=
  replaceAll ['–'] ['-'] (replaceAll perMonthTok [] (replaceAll idrTok [] (replaceAll rpTok [] s)))

/-- One segment's conversion, lines 27-28 of the source:
`int(salary_parts[i].replace(',', '').strip())`, with `none` standing for
the `ValueError` caught on line 30. -/
def parseSeg (p : List Char) : Option Int := pyInt (pyStrip (replaceAll [','] [] p))

/-- A Python value found in the `Salary` column: a string, the float `NaN`
used by pandas for missing data, some other number, or `None`. -/
inductive PyValue where
  | str : List Char → PyValue
  | nan : PyValue
  | num : Int → PyValue
  | pyNone : PyValue
deriving DecidableEq

/-- `isinstance(v, str)`. -/
def isStr : PyValue → Bool
  | PyValue.str _ => true
  | _ => false

/-- `parse_salary`, lines 21-33 of the source: non-strings map to `(0, 0)`;
strings are cleaned, split on `'-'`, and both segments are converted with
`int`; any failure yields `(0, 0)`. -/
def parse_salary (v : PyValue) : Int × Int :=
  match v with
  | PyValue.str s =>
    match splitChar '-' (cleanSalary s) with
    | [p1, p2] =>
      match parseSeg p1, parseSeg p2 with
      | some a, some b => (a, b)
      | _, _ => (0, 0)
    | _ => (0, 0)
  | _ => (0, 0)

/-- A value on which every step of `parse_salary` succeeds: it is a string
whose cleaned form splits on the hyphen into exactly two segments, both of
which convert to integers. -/
def parsesCleanly (v : PyValue) : Prop :=
  ∃ s p1 p2 : List Char, ∃ a b : Int, v = PyValue.str s ∧
    splitChar '-' (cleanSalary s) = [p1, p2] ∧ parseSeg p1 = some a ∧ parseSeg p2 = some b

/-- One raw row of the loaded table, restricted to the columns the filters
read. -/
structure RawRow where
  category : List Char
  salary : PyValue
deriving DecidableEq

/-- The derived `Salary Min` column. -/
def salaryMinCol (r : RawRow) : Int := (parse_salary r.salary).1

/-- The derived `Salary Max` column. -/
def salaryMaxCol (r : RawRow) : Int := (parse_salary r.salary).2

/-- Line 50: `df[df['Category'].isin(selected_category)]`. -/
def categoryFiltered (rows : List RawRow) (cats : List (List Char)) : List RawRow :=
  rows.filter (fun r => cats.contains r.category)

/-- Line 51: `filtered_df[(filtered_df['Salary Min'] >= min_salary) &
(filtered_df['Salary Max'] <= max_salary)]`, applied after the category
filter of line 50. -/
def filtered_df (rows : List RawRow) (cats : List (List Char)) (minS maxS : Int) : List RawRow :=
  (categoryFiltered rows cats).filter
    (fun r => decide (minS ≤ salaryMinCol r) && decide (salaryMaxCol r ≤ maxS))

/-- Line 98: `gaji = filtered_df[filtered_df['Salary Min'] > 0]`. -/
def gaji (df : List RawRow) : List RawRow :=
  df.filter (fun r => decide (0 < salaryMinCol r))

/-- Line 112: `valid_data = filtered_df[filtered_df['Salary Max'] > 0]`. -/
def valid_data (df : List RawRow) : List RawRow :=
  df.filter (fun r => decide (0 < salaryMaxCol r))

/-- Fueled digit expansion behind `natDigits`; the fuel only makes the
recursion structural and `natDigits` always supplies enough. -/
def natDigitsF : Nat → Nat → List Char
  | 0, n => [Char.ofNat (48 + n)]
  | fuel + 1, n =>
    if n < 10 then [Char.ofNat (48 + n)]
    else natDigitsF fuel (n / 10) ++ [Char.ofNat (48 + n % 10)]

/-- Decimal digits of a natural number, most significant first. -/
def natDigits (n : Nat) : List Char := natDigitsF n n

/-- Comma insertion on a reversed digit list: a comma after every third
character while more remain, as Python's `format(n, ',')` groups from the
right. -/
def insertRev : List Char → List Char
  | a :: b :: c :: d :: rest => a :: b :: c :: ',' :: insertRev (d :: rest)
  | l => l

/-- Python `f-string` formatting `{n:,}`: decimal digits with a comma every
three digits counted from the right. -/
def commaFmt (n : Nat) : List Char := (insertRev (natDigits n).reverse).reverse

/-- The round-trip input `"Rp {a:,} - {b:,} per month"` of the spec. -/
def rtFormat (a b : Nat) : List Char :=
  rpTok ++ [' '] ++ commaFmt a ++ [' ', '-', ' '] ++ commaFmt b ++ [' '] ++ perMonthTok

theorem replaceAllF_congr (old new : List Char) :
    ∀ f₁ f₂ : Nat, ∀ s : List Char, s.length ≤ f₁ → s.length ≤ f₂ →
      replaceAllF old new f₁ s = replaceAllF old new f₂ s := by
  intro f₁
  induction f₁ with
  | zero =>
    intro f₂ s h₁ _h₂
    have hs : s = [] := List.eq_nil_of_length_eq_zero (Nat.le_zero.mp h₁)
    subst hs
    cases f₂ <;> rfl
  | succ g ih =>
    intro f₂ s h₁ h₂
    cases s with
    | nil => cases f₂ <;> rfl
    | cons c rest =>
      cases f₂ with
      | zero => simp at h₂
      | succ g₂ =>
        simp only [replaceAllF]
        by_cases hp : List.isPrefixOf old (c :: rest) = true
        · rw [if_pos hp, if_pos hp]
          have hlen : (List.drop (old.length - 1) rest).length ≤ g := by
            rw [List.length_drop]
            simp only [List.length_cons] at h₁
            omega
          have hlen₂ : (List.drop (old.length - 1) rest).length ≤ g₂ := by
            rw [List.length_drop]
            simp only [List.length_cons] at h₂
            omega
          rw [ih g₂ _ hlen hlen₂]
        · rw [if_neg hp, if_neg hp]
          have hlen : rest.length ≤ g := by
            simp only [List.length_cons] at h₁; omega
          have hlen₂ : rest.length ≤ g₂ := by
            simp only [List.length_cons] at h₂; omega
          rw [ih g₂ rest hlen hlen₂]

theorem replaceAll_nil (old new : List Char) : replaceAll old new [] = [] := rfl

theorem replaceAll_cons (old new : List Char) (c : Char) (rest : List Char) :
    replaceAll old new (c :: rest) =
      if List.isPrefixOf old (c :: rest) then
        new ++ replaceAll old new (List.drop (old.length - 1) rest)
      else c :: replaceAll old new rest := by
  show replaceAllF old new (c :: rest).length (c :: rest) = _
  simp only [List.length_cons, replaceAllF]
  by_cases hp : List.isPrefixOf old (c :: rest) = true
  · rw [if_pos hp, if_pos hp]
    unfold replaceAll
    rw [replaceAllF_congr old new rest.length (List.drop (old.length - 1) rest).length
      (List.drop (old.length - 1) rest) (by rw [List.length_drop]; omega) le_rfl]
  · rw [if_neg hp, if_neg hp]
    rfl

theorem isPrefixOf_head_ne (hd x : Char) (tl rest : List Char) (h : ¬ x = hd) :
    List.isPrefixOf (hd :: tl) (x :: rest) = false := by
  have hbeq : (hd == x) = false := by
    cases hb : hd == x
    · rfl
    · have he : hd = x := by simpa using hb
      exact absurd he.symm h
  simp [List.isPrefixOf, hbeq]

theorem isPrefixOf_append_self (l s : List Char) : List.isPrefixOf l (l ++ s) = true := by
  induction l with
  | nil => simp [List.isPrefixOf]
  | cons c rest ih => simp [List.isPrefixOf, ih]

theorem replaceAll_append_notMem (hd : Char) (tl new pre s : List Char) (h : hd ∉ pre) :
    replaceAll (hd :: tl) new (pre ++ s) = pre ++ replaceAll (hd :: tl) new s := by
  induction pre with
  | nil => rfl
  | cons x pre ih =>
    have hx : ¬ x = hd := fun e => h (by rw [e]; exact List.mem_cons_self hd pre)
    rw [List.cons_append, replaceAll_cons, isPrefixOf_head_ne hd x _ _ hx]
    simp only [Bool.false_eq_true, if_false]
    rw [ih (fun hm => h (List.mem_cons_of_mem x hm))]
    rfl

theorem replaceAll_match (hd : Char) (tl new s : List Char) :
    replaceAll (hd :: tl) new ((hd :: tl) ++ s) = new ++ replaceAll (hd :: tl) new s := by
  rw [List.cons_append, replaceAll_cons]
  have hp : List.isPrefixOf (hd :: tl) (hd :: (tl ++ s)) = true := by
    rw [← List.cons_append]
    exact isPrefixOf_append_self (hd :: tl) s
  rw [if_pos hp]
  simp only [List.length_cons, Nat.add_sub_cancel]
  rw [List.drop_left]

theorem replaceAll_notMem (hd : Char) (tl new s : List Char) (h : hd ∉ s) :
    replaceAll (hd :: tl) new s = s := by
  have := replaceAll_append_notMem hd tl new s [] h
  simpa [replaceAll_nil] using this

theorem replaceAll_single (c : Char) (s : List Char) :
    replaceAll [c] [] s = s.filter (fun x => !(x == c)) := by
  induction s with
  | nil => rfl
  | cons x rest ih =>
    rw [replaceAll_cons]
    by_cases hx : x = c
    · subst hx
      have hp : List.isPrefixOf [x] (x :: rest) = true := by simp [List.isPrefixOf]
      rw [if_pos hp]
      simp [List.filter_cons, ih]
    · rw [if_neg (by rw [isPrefixOf_head_ne c x [] rest hx]; simp)]
      have hbeq : (x == c) = false := by
        cases hb : x == c
        · rfl
        · exact absurd (by simpa using hb) hx
      simp [List.filter_cons, hbeq, ih]

theorem splitChar_ne_nil (c : Char) (l : List Char) : splitChar c l ≠ [] := by
  cases l with
  | nil => simp [splitChar]
  | cons x xs =>
    simp only [splitChar]
    split
    · simp
    · split
      · simp
      · simp

theorem splitChar_notMem (c : Char) (l : List Char) (h : c ∉ l) : splitChar c l = [l] := by
  induction l with
  | nil => rfl
  | cons x xs ih =>
    have hx : (x == c) = false := by
      cases hb : x == c
      · rfl
      · have he : x = c := by simpa using hb
        exact absurd (by rw [he]; exact List.mem_cons_self c xs) h
    rw [splitChar, if_neg (by simp [hx]), ih (fun hm => h (List.mem_cons_of_mem x hm))]

theorem splitChar_pair (c : Char) (l₁ l₂ : List Char) (h₁ : c ∉ l₁) (h₂ : c ∉ l₂) :
    splitChar c (l₁ ++ c :: l₂) = [l₁, l₂] := by
  induction l₁ with
  | nil =>
    rw [List.nil_append, splitChar, if_pos (by simp), splitChar_notMem c l₂ h₂]
  | cons x xs ih =>
    have hx : (x == c) = false := by
      cases hb : x == c
      · rfl
      · have he : x = c := by simpa using hb
        exact absurd (by rw [he]; exact List.mem_cons_self c xs) h₁
    rw [List.cons_append, splitChar, if_neg (by simp [hx]),
      ih (fun hm => h₁ (List.mem_cons_of_mem x hm))]

theorem notMem_of_mem_splitChar (c : Char) (l p : List Char) (hp : p ∈ splitChar c l) :
    c ∉ p := by
  induction l generalizing p with
  | nil =>
    simp [splitChar] at hp
    subst hp
    simp
  | cons x xs ih =>
    rw [splitChar] at hp
    by_cases hx : (x == c) = true
    · rw [if_pos (by simp [hx])] at hp
      rcases List.mem_cons.mp hp with h | h
      · subst h; simp
      · exact ih p h
    · rw [if_neg (by simp at hx ⊢; exact hx)] at hp
      rcases hsp : splitChar c xs with _ | ⟨h0, t⟩
      · exact absurd hsp (splitChar_ne_nil c xs)
      · rw [hsp] at hp
        rcases List.mem_cons.mp hp with h | h
        · subst h
          intro hc
          rcases List.mem_cons.mp hc with e | e
          · exact hx (by simp [e])
          · exact (ih h0 (by rw [hsp]; exact List.mem_cons_self h0 t)) e
        · exact ih p (by rw [hsp]; exact List.mem_cons_of_mem h0 h)

theorem dropWhile_no (p : Char → Bool) (l : List Char) (h : ∀ x ∈ l, p x = false) :
    List.dropWhile p l = l := by
  cases l with
  | nil => rfl
  | cons a as =>
    rw [List.dropWhile_cons, if_neg]
    simp [h a (List.mem_cons_self a as)]

theorem mem_of_mem_dropWhile (p : Char → Bool) (l : List Char) (x : Char)
    (h : x ∈ List.dropWhile p l) : x ∈ l := by
  induction l with
  | nil => simp [List.dropWhile] at h
  | cons a as ih =>
    rw [List.dropWhile_cons] at h
    by_cases hpa : p a = true
    · rw [if_pos hpa] at h
      exact List.mem_cons_of_mem a (ih h)
    · rw [if_neg hpa] at h
      exact h

theorem mem_of_mem_pyStrip (l : List Char) (x : Char) (h : x ∈ pyStrip l) : x ∈ l := by
  unfold pyStrip rstrip lstrip at h
  rw [List.mem_reverse] at h
  have h1 := mem_of_mem_dropWhile pyIsSpace _ x h
  rw [List.mem_reverse] at h1
  exact mem_of_mem_dropWhile pyIsSpace _ x h1

theorem pyStrip_no_space (l : List Char) (h : ∀ x ∈ l, pyIsSpace x = false) :
    pyStrip l = l := by
  unfold pyStrip lstrip rstrip
  rw [dropWhile_no pyIsSpace l h,
    dropWhile_no pyIsSpace l.reverse (fun x hx => h x (List.mem_reverse.mp hx)),
    List.reverse_reverse]

theorem pyStrip_space_wrap (D : List Char) (hne : D ≠ []) (h : ∀ x ∈ D, pyIsSpace x = false) :
    pyStrip (' ' :: (D ++ [' '])) = D := by
  obtain ⟨d, D', hD⟩ := List.exists_cons_of_ne_nil hne
  unfold pyStrip lstrip rstrip
  rw [List.dropWhile_cons, if_pos (by decide)]
  rw [hD, List.cons_append, List.dropWhile_cons,
    if_neg (by simp [h d (by rw [hD]; exact List.mem_cons_self d D')]), ← List.cons_append,
    ← hD]
  have hrev : (D ++ [' ']).reverse = ' ' :: D.reverse := by
    rw [List.reverse_append]
    rfl
  rw [hrev, List.dropWhile_cons, if_pos (by decide),
    dropWhile_no pyIsSpace D.reverse (fun x hx => h x (List.mem_reverse.mp hx)),
    List.reverse_reverse]

theorem parseNum_all_digits (l : List Char) (h : ∀ c ∈ l, c.isDigit = true) (acc : Nat) :
    parseNum l acc = some (l.foldl digitsFoldFn acc) := by
  induction l generalizing acc with
  | nil => rfl
  | cons c rest ih =>
    have hc := h c (List.mem_cons_self c rest)
    have hcu : (c == '_') = false := by
      cases hb : c == '_'
      · rfl
      · have he : c = '_' := by simpa using hb
        rw [he] at hc
        exact absurd hc (by decide)
    rw [parseNum.eq_def]
    simp only [if_neg (by simp [hcu] : ¬ (c == '_') = true), if_pos hc]
    rw [ih (fun x hx => h x (List.mem_cons_of_mem c hx)) _]
    rfl

theorem pyInt_eq_of_strip (l : List Char) (c : Char) (rest : List Char)
    (h : pyStrip l = c :: rest) :
    pyInt l =
      (if c == '+' then (parseNumStart rest).map (fun n => (n : Int))
       else if c == '-' then (parseNumStart rest).map (fun n => -(n : Int))
       else (parseNumStart (c :: rest)).map (fun n => (n : Int))) := by
  unfold pyInt
  rw [h]

theorem digitChar_isDigit (k : Nat) (h : k < 10) : (Char.ofNat (48 + k)).isDigit = true := by
  interval_cases k <;> decide

theorem digitChar_toNat (k : Nat) (h : k < 10) : (Char.ofNat (48 + k)).toNat - 48 = k := by
  interval_cases k <;> decide

theorem digit_not_space (c : Char) (h : c.isDigit = true) : pyIsSpace c = false := by
  cases hps : pyIsSpace c
  · rfl
  · exfalso
    unfold pyIsSpace at hps
    simp only [Bool.or_eq_true, beq_iff_eq] at hps
    rcases hps with ((((e | e) | e) | e) | e) | e <;> rw [e] at h <;> exact absurd h (by decide)

theorem digit_ne_comma (c : Char) (h : c.isDigit = true) : (c == ',') = false := by
  cases hb : c == ','
  · rfl
  · have he : c = ',' := by simpa using hb
    rw [he] at h
    exact absurd h (by decide)

theorem natDigitsF_congr :
    ∀ f₁ f₂ n : Nat, n ≤ f₁ → n ≤ f₂ → natDigitsF f₁ n = natDigitsF f₂ n := by
  intro f₁
  induction f₁ with
  | zero =>
    intro f₂ n h₁ _h₂
    have hn : n = 0 := Nat.le_zero.mp h₁
    subst hn
    cases f₂ with
    | zero => rfl
    | succ g₂ => simp [natDigitsF]
  | succ g ih =>
    intro f₂ n h₁ h₂
    by_cases hn : n < 10
    · cases f₂ with
      | zero =>
        have : n = 0 := Nat.le_zero.mp h₂
        subst this
        simp [natDigitsF]
      | succ g₂ => simp [natDigitsF, hn]
    · cases f₂ with
      | zero => omega
      | succ g₂ =>
        simp only [natDigitsF, if_neg hn]
        have hdiv : n / 10 < n := Nat.div_lt_self (by omega) (by norm_num)
        rw [ih g₂ (n / 10) (by omega) (by omega)]

theorem natDigits_unfold (n : Nat) :
    natDigits n = if n < 10 then [Char.ofNat (48 + n)]
      else natDigits (n / 10) ++ [Char.ofNat (48 + n % 10)] := by
  by_cases h : n < 10
  · rw [if_pos h]
    cases n with
    | zero => rfl
    | succ m => simp [natDigits, natDigitsF, h]
  · rw [if_neg h]
    cases n with
    | zero => exact absurd (by norm_num) h
    | succ m =>
      show natDigitsF (m + 1) (m + 1) = _
      simp only [natDigitsF, if_neg h]
      have hdiv : (m + 1) / 10 < m + 1 := Nat.div_lt_self (by omega) (by norm_num)
      rw [natDigitsF_congr m ((m + 1) / 10) ((m + 1) / 10) (by omega) le_rfl]
      rfl

theorem natDigits_ne_nil (n : Nat) : natDigits n ≠ [] := by
  rw [natDigits_unfold]
  split <;> simp

theorem natDigits_digits (n : Nat) : ∀ c ∈ natDigits n, c.isDigit = true := by
  induction n using Nat.strong_induction_on with
  | _ n ih =>
    rw [natDigits_unfold]
    by_cases h : n < 10
    · rw [if_pos h]
      intro c hc
      rw [List.mem_singleton] at hc
      rw [hc]
      exact digitChar_isDigit n h
    · rw [if_neg h]
      intro c hc
      rcases List.mem_append.mp hc with h1 | h1
      · exact ih (n / 10) (Nat.div_lt_self (by omega) (by norm_num)) c h1
      · rw [List.mem_singleton] at h1
        rw [h1]
        exact digitChar_isDigit (n % 10) (Nat.mod_lt _ (by norm_num))

theorem natDigits_foldl (n : Nat) : ∀ acc : Nat,
    (natDigits n).foldl digitsFoldFn acc = acc * 10 ^ (natDigits n).length + n := by
  induction n using Nat.strong_induction_on with
  | _ n ih =>
    intro acc
    rw [natDigits_unfold]
    by_cases h : n < 10
    · rw [if_pos h]
      simp only [List.foldl_cons, List.foldl_nil, List.length_singleton, pow_one, digitsFoldFn]
      rw [digitChar_toNat n h]
    · rw [if_neg h]
      rw [List.foldl_append, ih (n / 10) (Nat.div_lt_self (by omega) (by norm_num)) acc]
      simp only [List.foldl_cons, List.foldl_nil, List.length_append, List.length_singleton,
        digitsFoldFn]
      rw [digitChar_toNat (n % 10) (Nat.mod_lt _ (by norm_num))]
      rw [pow_succ]
      generalize 10 ^ (natDigits (n / 10)).length = A
      have hA : acc * (A * 10) = acc * A * 10 := by ring
      rw [hA]
      omega

theorem pyInt_natDigits (n : Nat) : pyInt (natDigits n) = some (n : Int) := by
  have hall := natDigits_digits n
  have hstrip : pyStrip (natDigits n) = natDigits n :=
    pyStrip_no_space _ (fun x hx => digit_not_space x (hall x hx))
  obtain ⟨c, rest, hc⟩ := List.exists_cons_of_ne_nil (natDigits_ne_nil n)
  have hcd : c.isDigit = true := hall c (by rw [hc]; exact List.mem_cons_self c rest)
  have hplus : (c == '+') = false := by
    cases he : c == '+'
    · rfl
    · have : c = '+' := by simpa using he
      rw [this] at hcd
      exact absurd hcd (by decide)
  have hminus : (c == '-') = false := by
    cases he : c == '-'
    · rfl
    · have : c = '-' := by simpa using he
      rw [this] at hcd
      exact absurd hcd (by decide)
  rw [pyInt_eq_of_strip (natDigits n) c rest (by rw [hstrip, hc]),
    if_neg (by simp [hplus]), if_neg (by simp [hminus])]
  rw [parseNumStart, if_pos hcd,
    parseNum_all_digits rest (fun x hx => hall x (by rw [hc]; exact List.mem_cons_of_mem c hx)) _]
  have hfold := natDigits_foldl n 0
  rw [hc, List.foldl_cons] at hfold
  simp only [digitsFoldFn, Nat.zero_mul, Nat.zero_add] at hfold
  rw [hfold]
  simp

theorem mem_insertRev : ∀ l : List Char, ∀ x ∈ insertRev l, x ∈ l ∨ x = ','
  | [] => by intro x hx; exact Or.inl hx
  | [a] => by intro x hx; exact Or.inl hx
  | [a, b] => by intro x hx; exact Or.inl hx
  | [a, b, c] => by intro x hx; exact Or.inl hx
  | a :: b :: c :: d :: rest => by
    intro x hx
    simp only [insertRev, List.mem_cons] at hx
    rcases hx with e | e | e | e | e
    · exact Or.inl (by simp [e])
    · exact Or.inl (by simp [e])
    · exact Or.inl (by simp [e])
    · exact Or.inr e
    · rcases mem_insertRev (d :: rest) x e with h | h
      · exact Or.inl (by simp [List.mem_cons] at h ⊢; tauto)
      · exact Or.inr h

theorem filter_insertRev : ∀ l : List Char,
    (insertRev l).filter (fun x => !(x == ',')) = l.filter (fun x => !(x == ','))
  | [] => rfl
  | [a] => rfl
  | [a, b] => rfl
  | [a, b, c] => rfl
  | a :: b :: c :: d :: rest => by
    simp only [insertRev, List.filter_cons]
    rw [filter_insertRev (d :: rest)]
    simp [List.filter_cons]

theorem commaFmt_chars (n : Nat) : ∀ x ∈ commaFmt n, x.isDigit = true ∨ x = ',' := by
  intro x hx
  unfold commaFmt at hx
  rw [List.mem_reverse] at hx
  rcases mem_insertRev _ x hx with h | h
  · rw [List.mem_reverse] at h
    exact Or.inl (natDigits_digits n x h)
  · exact Or.inr h

theorem commaFmt_notMem (n : Nat) (x : Char) (hx1 : x.isDigit = false) (hx2 : ¬ x = ',') :
    x ∉ commaFmt n := by
  intro h
  rcases commaFmt_chars n x h with h1 | h1
  · rw [h1] at hx1
    cases hx1
  · exact hx2 h1

theorem filter_commaFmt (n : Nat) :
    (commaFmt n).filter (fun x => !(x == ',')) = natDigits n := by
  unfold commaFmt
  rw [List.filter_reverse, filter_insertRev, List.filter_reverse, List.reverse_reverse]
  rw [List.filter_eq_self.mpr]
  intro x hx
  simp [digit_ne_comma x (natDigits_digits n x hx)]

theorem parseSeg_wrap (n : Nat) :
    parseSeg (' ' :: (commaFmt n ++ [' '])) = some (n : Int) := by
  unfold parseSeg
  rw [replaceAll_single]
  have hfilter : (' ' :: (commaFmt n ++ [' '])).filter (fun x => !(x == ',')) =
      ' ' :: (natDigits n ++ [' ']) := by
    have h1 : List.filter (fun x => !(x == ',')) [' '] = [' '] := by decide
    rw [List.filter_cons, List.filter_append, filter_commaFmt, h1, if_pos (by decide)]
  rw [hfilter,
    pyStrip_space_wrap (natDigits n) (natDigits_ne_nil n)
      (fun x hx => digit_not_space x (natDigits_digits n x hx)),
    pyInt_natDigits]

theorem cleanSalary_rtFormat (a b : Nat) :
    cleanSalary (rtFormat a b) =
      (' ' :: (commaFmt a ++ [' '])) ++ ('-' :: (' ' :: (commaFmt b ++ [' ']))) := by
  have hAc := commaFmt_chars a
  have hBc := commaFmt_chars b
  have hmid : ∀ x : Char,
      x ∈ ' ' :: (commaFmt a ++ (' ' :: '-' :: ' ' :: (commaFmt b ++ (' ' :: perMonthTok)))) →
      x.isDigit = true ∨ x = ',' ∨ x = ' ' ∨ x = '-' ∨ x ∈ perMonthTok := by
    intro x hx
    simp only [List.mem_cons, List.mem_append] at hx
    have ha := hAc x
    have hb := hBc x
    tauto
  have hpre : ∀ x : Char,
      x ∈ ' ' :: (commaFmt a ++ (' ' :: '-' :: ' ' :: (commaFmt b ++ [' ']))) →
      x.isDigit = true ∨ x = ',' ∨ x = ' ' ∨ x = '-' := by
    intro x hx
    simp only [List.mem_cons, List.mem_append, List.not_mem_nil, or_false] at hx
    have ha := hAc x
    have hb := hBc x
    tauto
  have hR : 'R' ∉ ' ' :: (commaFmt a ++ (' ' :: '-' :: ' ' :: (commaFmt b ++ (' ' :: perMonthTok)))) := by
    intro h
    rcases hmid 'R' h with h1 | h1 | h1 | h1 | h1 <;> revert h1 <;> decide
  have hI : 'I' ∉ ' ' :: (commaFmt a ++ (' ' :: '-' :: ' ' :: (commaFmt b ++ (' ' :: perMonthTok)))) := by
    intro h
    rcases hmid 'I' h with h1 | h1 | h1 | h1 | h1 <;> revert h1 <;> decide
  have hp : 'p' ∉ ' ' :: (commaFmt a ++ (' ' :: '-' :: ' ' :: (commaFmt b ++ [' ']))) := by
    intro h
    rcases hpre 'p' h with h1 | h1 | h1 | h1 <;> revert h1 <;> decide
  have hdash : '–' ∉ ' ' :: (commaFmt a ++ (' ' :: '-' :: ' ' :: (commaFmt b ++ [' ']))) := by
    intro h
    rcases hpre '–' h with h1 | h1 | h1 | h1 <;> revert h1 <;> decide
  have h0 : rtFormat a b =
      ('R' :: ['p']) ++
        (' ' :: (commaFmt a ++ (' ' :: '-' :: ' ' :: (commaFmt b ++ (' ' :: perMonthTok))))) := by
    unfold rtFormat rpTok
    simp [List.append_assoc]
  have hsplit2 : ' ' :: (commaFmt a ++ (' ' :: '-' :: ' ' :: (commaFmt b ++ (' ' :: perMonthTok)))) =
      (' ' :: (commaFmt a ++ (' ' :: '-' :: ' ' :: (commaFmt b ++ [' '])))) ++ perMonthTok := by
    simp [List.append_assoc]
  unfold cleanSalary
  rw [h0, show rpTok = 'R' :: ['p'] from rfl, replaceAll_match 'R' ['p'] [],
    List.nil_append, replaceAll_notMem 'R' ['p'] [] _ hR,
    show idrTok = 'I' :: ['D', 'R'] from rfl, replaceAll_notMem 'I' ['D', 'R'] [] _ hI,
    hsplit2, show perMonthTok = 'p' :: ['e', 'r', ' ', 'm', 'o', 'n', 't', 'h'] from rfl,
    replaceAll_append_notMem 'p' ['e', 'r', ' ', 'm', 'o', 'n', 't', 'h'] [] _ _ hp]
  rw [show replaceAll ('p' :: ['e', 'r', ' ', 'm', 'o', 'n', 't', 'h']) []
      ('p' :: ['e', 'r', ' ', 'm', 'o', 'n', 't', 'h']) = [] from by decide, List.append_nil]
  rw [replaceAll_notMem '–' [] ['-'] _ hdash]
  simp [List.append_assoc]

example : parse_salary (PyValue.str "Rp 5,000,000 - 8,000,000 per month".toList) = (5000000, 8000000) := by decide
example : parse_salary (PyValue.str "IDR 3.000.000".toList) = (0, 0) := by decide
example : parse_salary (PyValue.str "4,000,000–6,000,000".toList) = (4000000, 6000000) := by decide
example : parse_salary PyValue.nan = (0, 0) := rfl
example : parse_salary (PyValue.str "8,000,000 - 5,000,000".toList) = (8000000, 5000000) := by decide
example : commaFmt 1234567 = "1,234,567".toList := by decide
example : rtFormat 5000000 8000000 = "Rp 5,000,000 - 8,000,000 per month".toList := by decide

theorem pyInt_nonneg (l : List Char) (hd : '-' ∉ l) (z : Int) (hz : pyInt l = some z) :
    0 ≤ z := by
  rcases hst : pyStrip l with _ | ⟨c, rest⟩
  · unfold pyInt at hz
    rw [hst] at hz
    simp at hz
  · rw [pyInt_eq_of_strip l c rest hst] at hz
    have hcm : c ∈ l := mem_of_mem_pyStrip l c (by rw [hst]; exact List.mem_cons_self c rest)
    have hcminus : (c == '-') = false := by
      cases he : c == '-'
      · rfl
      · have he2 : c = '-' := by simpa using he
        exact absurd (he2 ▸ hcm) hd
    by_cases hcplus : (c == '+') = true
    · rw [if_pos hcplus] at hz
      rcases hps : parseNumStart rest with _ | n
      · rw [hps] at hz; simp at hz
      · rw [hps] at hz
        simp at hz
        omega
    · rw [if_neg hcplus, if_neg (by simp [hcminus])] at hz
      rcases hps : parseNumStart (c :: rest) with _ | n
      · rw [hps] at hz; simp at hz
      · rw [hps] at hz
        simp at hz
        omega

theorem parseSeg_nonneg (p : List Char) (hd : '-' ∉ p) (z : Int) (hz : parseSeg p = some z) :
    0 ≤ z := by
  unfold parseSeg at hz
  refine pyInt_nonneg _ ?_ z hz
  intro hmem
  have h1 := mem_of_mem_pyStrip _ _ hmem
  rw [replaceAll_single] at h1
  exact hd (List.mem_of_mem_filter h1)

/-- C1: for every pair of non-negative integers `(a, b)`, formatting them as
the string `"Rp {a:,} - {b:,} per month"` (comma thousands separators, single
hyphen, trailing qualifier) and applying `parse_salary` to the result returns
exactly the pair `(a, b)`. -/
theorem C1_round_trip (a b : Nat) :
    parse_salary (PyValue.str (rtFormat a b)) = ((a : Int), (b : Int)) := by
  have hsegA : '-' ∉ ' ' :: (commaFmt a ++ [' ']) := by
    intro h
    rcases List.mem_cons.mp h with h1 | h1
    · exact absurd h1 (by decide)
    · rcases List.mem_append.mp h1 with h2 | h2
      · exact commaFmt_notMem a '-' (by decide) (by decide) h2
      · exact absurd h2 (by decide)
  have hsegB : '-' ∉ ' ' :: (commaFmt b ++ [' ']) := by
    intro h
    rcases List.mem_cons.mp h with h1 | h1
    · exact absurd h1 (by decide)
    · rcases List.mem_append.mp h1 with h2 | h2
      · exact commaFmt_notMem b '-' (by decide) (by decide) h2
      · exact absurd h2 (by decide)
  have hsp : splitChar '-' (cleanSalary (rtFormat a b)) =
      [' ' :: (commaFmt a ++ [' ']), ' ' :: (commaFmt b ++ [' '])] := by
    rw [cleanSalary_rtFormat a b]
    exact splitChar_pair '-' _ _ hsegA hsegB
  have h1 := parseSeg_wrap a
  have h2 := parseSeg_wrap b
  simp [parse_salary, hsp, h1, h2]

/-- C2: a row whose salary text is unparseable (derived pair `(0, 0)`) is
excluded by the sidebar range filter whenever the selected minimum bound is
strictly greater than `0`, and is always excluded by the two Tab-3 chart
filters (`Salary Min > 0` and `Salary Max > 0`). -/
theorem C2_sentinel_excluded (rows : List RawRow) (cats : List (List Char)) (minS maxS : Int)
    (r : RawRow) (h : parse_salary r.salary = (0, 0)) :
    (0 < minS → r ∉ filtered_df rows cats minS maxS) ∧
    r ∉ gaji (filtered_df rows cats minS maxS) ∧
    r ∉ valid_data (filtered_df rows cats minS maxS) := by
  have hmin : salaryMinCol r = 0 := by unfold salaryMinCol; rw [h]
  have hmax : salaryMaxCol r = 0 := by unfold salaryMaxCol; rw [h]
  refine ⟨?_, ?_, ?_⟩
  · intro hpos hr
    unfold filtered_df at hr
    have hcond := (List.mem_filter.mp hr).2
    rw [hmin] at hcond
    simp at hcond
    omega
  · intro hr
    unfold gaji at hr
    have hcond := (List.mem_filter.mp hr).2
    rw [hmin] at hcond
    simp at hcond
  · intro hr
    unfold valid_data at hr
    have hcond := (List.mem_filter.mp hr).2
    rw [hmax] at hcond
    simp at hcond

theorem C2_sentinel_excluded_witness :
    ((0 : Int) < 1 → RawRow.mk ['A'] PyValue.nan ∉
        filtered_df [RawRow.mk ['A'] PyValue.nan] [['A']] 1 10000000) ∧
    RawRow.mk ['A'] PyValue.nan ∉
      gaji (filtered_df [RawRow.mk ['A'] PyValue.nan] [['A']] 1 10000000) ∧
    RawRow.mk ['A'] PyValue.nan ∉
      valid_data (filtered_df [RawRow.mk ['A'] PyValue.nan] [['A']] 1 10000000) :=
  C2_sentinel_excluded [RawRow.mk ['A'] PyValue.nan] [['A']] 1 10000000
    (RawRow.mk ['A'] PyValue.nan) rfl

/-- C3: `parse_salary` is a total function returning a pair of integers for
every input value; every case in which some step fails resolves to the
sentinel pair `(0, 0)` rather than a signaled error. -/
theorem C3_total_or_sentinel (v : PyValue) :
    parsesCleanly v ∨ parse_salary v = (0, 0) := by
  cases v with
  | str s =>
    rcases hsp : splitChar '-' (cleanSalary s) with _ | ⟨p1, _ | ⟨p2, _ | ⟨p3, t3⟩⟩⟩
    · right; simp [parse_salary, hsp]
    · right; simp [parse_salary, hsp]
    · rcases h1 : parseSeg p1 with _ | a
      · right; simp [parse_salary, hsp, h1]
      · rcases h2 : parseSeg p2 with _ | b
        · right; simp [parse_salary, hsp, h1, h2]
        · left; exact ⟨s, p1, p2, a, b, rfl, hsp, h1, h2⟩
    · right; simp [parse_salary, hsp]
  | nan => right; rfl
  | num n => right; rfl
  | pyNone => right; rfl

/-- C4: whenever the cleaned form of a text does not split on the hyphen into
exactly two segments (no hyphen at all, or more than one), `parse_salary`
returns `(0, 0)`; in particular it does so on `"IDR 3.000.000"`. -/
theorem C4_bad_split_sentinel :
    (∀ s : List Char, (splitChar '-' (cleanSalary s)).length ≠ 2 →
      parse_salary (PyValue.str s) = (0, 0)) ∧
    parse_salary (PyValue.str "IDR 3.000.000".toList) = (0, 0) := by
  constructor
  · intro s hlen
    rcases hsp : splitChar '-' (cleanSalary s) with _ | ⟨p1, _ | ⟨p2, _ | ⟨p3, t3⟩⟩⟩
    · simp [parse_salary, hsp]
    · simp [parse_salary, hsp]
    · exact absurd (by rw [hsp]; rfl) hlen
    · simp [parse_salary, hsp]
  · decide

theorem C4_bad_split_sentinel_witness :
    parse_salary (PyValue.str "Rp 3.000".toList) = (0, 0) :=
  C4_bad_split_sentinel.1 "Rp 3.000".toList (by decide)

/-- C5: if the cleaned text splits into exactly two segments and either
segment fails integer conversion, `parse_salary` returns `(0, 0)` for the
whole pair; no partial result is returned. -/
theorem C5_all_or_nothing (s p1 p2 : List Char)
    (hsp : splitChar '-' (cleanSalary s) = [p1, p2])
    (hfail : parseSeg p1 = none ∨ parseSeg p2 = none) :
    parse_salary (PyValue.str s) = (0, 0) := by
  rcases hfail with hf | hf
  · rcases h2 : parseSeg p2 with _ | b <;> simp [parse_salary, hsp, hf, h2]
  · rcases h1 : parseSeg p1 with _ | a <;> simp [parse_salary, hsp, hf, h1]

theorem C5_all_or_nothing_witness :
    parse_salary (PyValue.str "1 - abc".toList) = (0, 0) :=
  C5_all_or_nothing "1 - abc".toList "1 ".toList " abc".toList (by decide)
    (Or.inr (by decide))

/-- C6: every non-string input (a missing-data sentinel, a number, or `None`)
maps to `(0, 0)` immediately. -/
theorem C6_nonstring_sentinel (v : PyValue) (h : isStr v = false) :
    parse_salary v = (0, 0) := by
  cases v with
  | str s => simp [isStr] at h
  | nan => rfl
  | num n => rfl
  | pyNone => rfl

theorem C6_nonstring_sentinel_witness :
    isStr PyValue.nan = false ∧ parse_salary PyValue.nan = (0, 0) :=
  ⟨rfl, C6_nonstring_sentinel PyValue.nan rfl⟩

/-- C7: both components of the pair returned by `parse_salary` are
non-negative, on the successful branch as well as on every fallback. -/
theorem C7_nonneg (v : PyValue) :
    0 ≤ (parse_salary v).1 ∧ 0 ≤ (parse_salary v).2 := by
  cases v with
  | nan => exact ⟨le_refl 0, le_refl 0⟩
  | num n => exact ⟨le_refl 0, le_refl 0⟩
  | pyNone => exact ⟨le_refl 0, le_refl 0⟩
  | str s =>
    rcases hsp : splitChar '-' (cleanSalary s) with _ | ⟨p1, _ | ⟨p2, _ | ⟨p3, t3⟩⟩⟩
    · simp [parse_salary, hsp]
    · simp [parse_salary, hsp]
    · rcases h1 : parseSeg p1 with _ | a
      · simp [parse_salary, hsp, h1]
      · rcases h2 : parseSeg p2 with _ | b
        · simp [parse_salary, hsp, h1, h2]
        · have hp1mem : p1 ∈ splitChar '-' (cleanSalary s) := by
            rw [hsp]; exact List.mem_cons_self _ _
          have hp2mem : p2 ∈ splitChar '-' (cleanSalary s) := by
            rw [hsp]; exact List.mem_cons_of_mem _ (List.mem_cons_self _ _)
          have ha := parseSeg_nonneg p1 (notMem_of_mem_splitChar '-' _ p1 hp1mem) a h1
          have hb := parseSeg_nonneg p2 (notMem_of_mem_splitChar '-' _ p2 hp2mem) b h2
          simp [parse_salary, hsp, h1, h2]
          exact ⟨ha, hb⟩
    · simp [parse_salary, hsp]

/-- C8: a text that cleanly parses into two integers is returned in source
order with no ordering check, and a descending range
`"8,000,000 - 5,000,000"` yields a returned minimum strictly greater than the
returned maximum. -/
theorem C8_source_order :
    (∀ (s p1 p2 : List Char) (a b : Int),
      splitChar '-' (cleanSalary s) = [p1, p2] →
      parseSeg p1 = some a → parseSeg p2 = some b →
      parse_salary (PyValue.str s) = (a, b)) ∧
    parse_salary (PyValue.str "8,000,000 - 5,000,000".toList) = (8000000, 5000000) ∧
    (5000000 : Int) < 8000000 := by
  refine ⟨?_, by decide, by decide⟩
  intro s p1 p2 a b hsp h1 h2
  simp [parse_salary, hsp, h1, h2]

theorem C8_source_order_witness :
    parse_salary (PyValue.str "8,000,000 - 5,000,000".toList) = (8000000, 5000000) :=
  C8_source_order.1 "8,000,000 - 5,000,000".toList "8,000,000 ".toList " 5,000,000".toList
    8000000 5000000 (by decide) (by decide) (by decide)

/-- C9: the en-dash range `"4,000,000–6,000,000"` parses to
`(4000000, 6000000)`: the en-dash is normalized to a hyphen before the
split. -/
theorem C9_endash :
    parse_salary (PyValue.str "4,000,000–6,000,000".toList) = (4000000, 6000000) := by
  decide

/-- C10: with the sidebar bounds at their defaults (minimum `0`, maximum
`10,000,000`), a row whose derived salary pair is the sentinel `(0, 0)` and
whose category is selected passes the sidebar filter and appears in
`filtered_df`. -/
theorem C10_sentinel_included (rows : List RawRow) (cats : List (List Char)) (r : RawRow)
    (hr : r ∈ rows) (hcat : cats.contains r.category = true)
    (h : parse_salary r.salary = (0, 0)) :
    r ∈ filtered_df rows cats 0 10000000 := by
  unfold filtered_df categoryFiltered
  refine List.mem_filter.mpr ⟨List.mem_filter.mpr ⟨hr, hcat⟩, ?_⟩
  simp only [salaryMinCol, salaryMaxCol, h]
  decide

theorem C10_sentinel_included_witness :
    RawRow.mk ['A'] PyValue.nan ∈
      filtered_df [RawRow.mk ['A'] PyValue.nan] [['A']] 0 10000000 :=
  C10_sentinel_included [RawRow.mk ['A'] PyValue.nan] [['A']] (RawRow.mk ['A'] PyValue.nan)
    (List.mem_cons_self _ _) (by decide) rfl
